import Mathlib

/-!
Shallow embedding of the electrostatic field-line engine of
`src/EMField_Simulation.py` (class `Charges`), together with proofs of the
specification's claims about it.

The Python class keeps two parallel numpy arrays `_q` (magnitudes) and
`_pos` (xy positions), always of equal length; the functional model below
represents that pair of arrays as a single list of `(magnitude, position)`
pairs, which is exactly what `get_charges` exposes.  Floating-point numbers
are idealised as real numbers.  `np.argmin` and `scipy.integrate.odeint`
are external library calls and are modelled by their documented contracts:
`argmin` returns the first index attaining the minimum and faults on an
empty array; `odeint` returns one state row per requested sample parameter,
the first row being exactly the initial condition, later rows being
integrator output (modelled here as explicit fixed steps between the
requested sample parameters — no claim below depends on those later rows).

A second, heap-aware model (`PyCharges`) refines the functional one for the
aliasing claim about `get_charges`: numpy row slices are views into the
position buffer, so the model tracks buffer identity explicitly.
-/

noncomputable section

abbrev Vec2 : Type := ℝ × ℝ

/-- Squared Euclidean distance between two points: `r = a - b; d = sum(r**2)`. -/
def sqd (a b : Vec2) : ℝ := (a.1 - b.1) ^ 2 + (a.2 - b.2) ^ 2

/-- The functional model of the state of the `Charges` class: the parallel
arrays `_q` and `_pos` as one list of (magnitude, position) pairs. -/
abbrev Charges : Type := List (ℝ × Vec2)

/-- `Charges.add_charge` (source lines 54–57): append the magnitude to `_q`
(`np.hstack`) and the position to `_pos` (`np.vstack`). -/
def add_charge (cs : Charges) (q : ℝ) (xy : Vec2) : Charges := cs ++ [(q, xy)]

/-- `Charges.delete_charge` (source lines 59–63): if `k >= 0 and k < len`,
delete entry `k` from both arrays (`np.delete`); otherwise do nothing. -/
def delete_charge (cs : Charges) (k : Int) : Charges :=
  if 0 ≤ k ∧ k < (cs.length : Int) then cs.eraseIdx k.toNat else cs

/-- Write a new position into entry `k` of the list, keeping the magnitude:
the in-place row assignment `self._pos[k, :] = xy`. -/
def setPos (xy : Vec2) : Charges → ℕ → Charges
  | [], _ => []
  | c :: cs, 0 => (c.1, xy) :: cs
  | c :: cs, n + 1 => c :: setPos xy cs n

/-- `Charges.set_position` (source lines 65–68): if `k >= 0 and k < len`,
overwrite the position row `k`; otherwise do nothing. -/
def set_position (cs : Charges) (k : Int) (xy : Vec2) : Charges :=
  if 0 ≤ k ∧ k < (cs.length : Int) then setPos xy cs k.toNat else cs

/-- `Charges.get_charges` (source lines 70–73): the list of
`(q, p[k, :])` pairs, i.e. the charge list itself in this model. -/
def get_charges (cs : Charges) : List (ℝ × Vec2) := cs

/-- First index of the minimum of the nonempty list `x :: xs`: the
documented contract of `np.argmin` ("the indices corresponding to the
first occurrence are returned"). -/
def argminIdx (x : ℝ) (xs : List ℝ) : ℕ :=
  match xs with
  | [] => 0
  | y :: ys =>
    if x ≤ (y :: ys).getD (argminIdx y ys) 0 then 0 else argminIdx y ys + 1

/-- `Charges.get_closest` (source lines 75–100): squared distances
`d = sum((xy - pos)**2)`, `qidx = np.argmin(d)`, return `qidx` if
`d[qidx] < limit**2` else `None`.  `np.argmin` raises `ValueError` on an
empty array, modelled by the `Except.error` branch. -/
def get_closest (cs : Charges) (xy : Vec2) (limit : ℝ) : Except Unit (Option ℕ) :=
  match cs.map (fun c => sqd xy c.2) with
  | [] => Except.error ()
  | d0 :: ds =>
    if (d0 :: ds).getD (argminIdx d0 ds) 0 < limit ^ 2 then
      Except.ok (some (argminIdx d0 ds))
    else
      Except.ok none

/-- The raw summed field of `scaled_electric_field` (source lines 132–139):
`r = xy - pos; dsq = sum(r**2); emag = q/dsq; eunit = r/sqrt(dsq);
etot = sum(emag*eunit)`. -/
def etot (cs : Charges) (xy : Vec2) : Vec2 :=
  cs.foldl
    (fun acc c =>
      (acc.1 + c.1 / sqd xy c.2 * ((xy.1 - c.2.1) / Real.sqrt (sqd xy c.2)),
       acc.2 + c.1 / sqd xy c.2 * ((xy.2 - c.2.2) / Real.sqrt (sqd xy c.2))))
    (0, 0)

/-- The squared magnitude `s = etot[0]**2 + etot[1]**2` (source line 140). -/
def snorm2 (v : Vec2) : ℝ := v.1 ^ 2 + v.2 ^ 2

/-- `Charges.scaled_electric_field` (source lines 105–141): the raw summed
field rescaled by `1/(s + 0.0001)`.  The second argument is the unused
integration-parameter placeholder required by the `odeint` callback
convention. -/
def scaled_electric_field (cs : Charges) (xy : Vec2) (_lam : ℝ) : Vec2 :=
  ((etot cs xy).1 / (snorm2 (etot cs xy) + 0.0001),
   (etot cs xy).2 / (snorm2 (etot cs xy) + 0.0001))

/-- `np.linspace a b n`: `n` evenly spaced samples from `a` to `b`
inclusive.  For `n = 1` numpy returns `[a]`, which coincides with the
generic formula here because division by zero is zero in Lean. -/
def linspace (a b : ℝ) (n : ℕ) : List ℝ :=
  (List.range n).map (fun i : ℕ => a + (b - a) * (i : ℝ) / ((n : ℝ) - 1))

/-- The start angles of `field_lines` (source lines 174–176):
`np.linspace(2*pi/n, 2*pi, n) + pi/n`. -/
def angles (n : ℕ) : List ℝ :=
  (linspace (2 * Real.pi / n) (2 * Real.pi) n).map (fun a => a + Real.pi / n)

/-- One explicit integration step per requested sample parameter; only the
fact that each sample contributes exactly one output row matters to the
claims below. -/
def odeintGo (f : Vec2 → ℝ → Vec2) : Vec2 → ℝ → List ℝ → List Vec2
  | y, _, [] => [y]
  | y, t, s :: ts =>
    y :: odeintGo f (y.1 + (s - t) * (f y t).1, y.2 + (s - t) * (f y t).2) s ts

/-- Contract model of `scipy.integrate.odeint`: one output row per entry of
`ts`, the first row being exactly the initial condition `y0`. -/
def odeint (f : Vec2 → ℝ → Vec2) (y0 : Vec2) (ts : List ℝ) : List Vec2 :=
  match ts with
  | [] => []
  | t0 :: rest => odeintGo f y0 t0 rest

/-- The inner loop body of `field_lines` (source lines 182–187): the family
of lines seeded on the ring of radius `start_radius` around the charge `c`,
one per angle, each integrated over `lambdas = linspace 0 lambda_max points`. -/
def lineFam (cs : Charges) (nr : ℕ) (start_radius lambda_max : ℝ) (points : ℕ)
    (c : ℝ × Vec2) : List (List Vec2) :=
  (angles nr).map (fun θ =>
    odeint (scaled_electric_field cs)
      (c.2.1 + start_radius * Real.cos θ, c.2.2 + start_radius * Real.sin θ)
      (linspace 0 lambda_max points))

/-- `Charges.field_lines` (source lines 146–188): for each charge, if its
magnitude is positive, emit the family of integrated lines for each start
angle; charges are visited in index order, angles in order. -/
def field_lines (cs : Charges) (nr : ℕ) (start_radius lambda_max : ℝ)
    (points : ℕ) : List (List Vec2) :=
  (get_charges cs).flatMap (fun c =>
    if 0 < c.1 then lineFam cs nr start_radius lambda_max points c else [])

/-- Euclidean distance from the query point `p` to the position of charge
`i` (statement vocabulary for the `nearest` claims). -/
def distToCharge (cs : Charges) (p : Vec2) (i : ℕ) : ℝ :=
  Real.sqrt (sqd p ((cs.getD i (0, (0, 0))).2))

/-- Euclidean norm of a plane vector (statement vocabulary for the field
bound claim). -/
def enorm (v : Vec2) : ℝ := Real.sqrt (v.1 ^ 2 + v.2 ^ 2)

/-! ### Heap-aware model of the numpy position buffers

`get_charges` returns `(q, self._pos[k, :])` pairs in which the second
component is a numpy *view* of row `k` of the current position buffer,
while the magnitude `q` is a copied scalar.  `set_position` writes into the
current buffer in place; `add_charge` and `delete_charge` rebind `_pos` to
a freshly allocated buffer.  The model tracks buffers by identity. -/

/-- Heap-aware state of the `Charges` object: the magnitude list, a store
of position buffers indexed by allocation id, the id of the buffer `_pos`
currently refers to, and the next fresh id. -/
structure PyCharges where
  qvals : List ℝ
  store : ℕ → List Vec2
  cur : ℕ
  next : ℕ

/-- Heap-aware `add_charge`: `np.hstack`/`np.vstack` allocate a fresh
position buffer holding the old rows plus the new one; `_pos` is rebound
to it. -/
def py_add (σ : PyCharges) (q : ℝ) (xy : Vec2) : PyCharges :=
  { qvals := σ.qvals ++ [q]
    store := Function.update σ.store σ.next (σ.store σ.cur ++ [xy])
    cur := σ.next
    next := σ.next + 1 }

/-- Heap-aware `delete_charge`: in range, `np.delete` allocates a fresh
buffer without row `k` and `_pos` is rebound to it; otherwise no-op. -/
def py_delete (σ : PyCharges) (k : Int) : PyCharges :=
  if 0 ≤ k ∧ k < (σ.qvals.length : Int) then
    { qvals := σ.qvals.eraseIdx k.toNat
      store := Function.update σ.store σ.next ((σ.store σ.cur).eraseIdx k.toNat)
      cur := σ.next
      next := σ.next + 1 }
  else σ

/-- Heap-aware `set_position`: in range, `self._pos[k, :] = xy` writes row
`k` of the *current* buffer in place (no fresh allocation); otherwise
no-op. -/
def py_set_position (σ : PyCharges) (k : Int) (xy : Vec2) : PyCharges :=
  if 0 ≤ k ∧ k < (σ.qvals.length : Int) then
    { σ with store := Function.update σ.store σ.cur ((σ.store σ.cur).set k.toNat xy) }
  else σ

/-- What `get_charges` hands out in the heap-aware model: copied magnitude
scalars paired with views of the rows of the buffer current at call time.
A view is represented by the buffer id; row `k` of the snapshot views row
`k` of that buffer. -/
structure PySnapshot where
  qs : List ℝ
  buf : ℕ

/-- Heap-aware `Charges.get_charges`. -/
def py_get_charges (σ : PyCharges) : PySnapshot := ⟨σ.qvals, σ.cur⟩

/-- The value a previously returned snapshot shows when observed in state
`σ`: each view dereferences its row in the (possibly since mutated) buffer
it points into. -/
def readSnapshot (σ : PyCharges) (s : PySnapshot) : List (ℝ × Vec2) :=
  (List.range s.qs.length).map (fun k => (s.qs.getD k 0, (σ.store s.buf).getD k (0, 0)))

end

/-! ### Helper lemmas -/

lemma getElem?_eraseIdx_of_lt {α : Type} :
    ∀ (l : List α) (k i : ℕ), i < k → (l.eraseIdx k)[i]? = l[i]? := by
  intro l
  induction l with
  | nil => simp
  | cons a as ih =>
    intro k i hik
    match k, i with
    | k + 1, 0 => simp
    | k + 1, i + 1 => simpa using ih k i (by omega)

lemma getElem?_eraseIdx_of_ge {α : Type} :
    ∀ (l : List α) (k i : ℕ), k ≤ i → (l.eraseIdx k)[i]? = l[i + 1]? := by
  intro l
  induction l with
  | nil => simp
  | cons a as ih =>
    intro k i hik
    match k, i with
    | 0, i => simp
    | k + 1, i + 1 => simpa using ih k i (by omega)

lemma length_setPos : ∀ (l : Charges) (n : ℕ) (xy : Vec2),
    (setPos xy l n).length = l.length := by
  intro l
  induction l with
  | nil => simp [setPos]
  | cons c cs ih =>
    intro n xy
    match n with
    | 0 => simp [setPos]
    | n + 1 => simp [setPos, ih n xy]

lemma getElem?_setPos_self : ∀ (l : Charges) (n : ℕ) (xy : Vec2),
    (setPos xy l n)[n]? = l[n]?.map (fun c => (c.1, xy)) := by
  intro l
  induction l with
  | nil => simp [setPos]
  | cons c cs ih =>
    intro n xy
    match n with
    | 0 => simp [setPos]
    | n + 1 => simpa [setPos] using ih n xy

lemma getElem?_setPos_ne : ∀ (l : Charges) (n : ℕ) (xy : Vec2) (i : ℕ),
    i ≠ n → (setPos xy l n)[i]? = l[i]? := by
  intro l
  induction l with
  | nil => simp [setPos]
  | cons c cs ih =>
    intro n xy i hne
    match n, i with
    | 0, 0 => omega
    | 0, i + 1 => simp [setPos]
    | n + 1, 0 => simp [setPos]
    | n + 1, i + 1 => simpa [setPos] using ih n xy i (by omega)

/-! ### Claims -/

/-- C10: on an empty charge collection, `scaled_electric_field` returns the
zero vector at every query point: the empty sum is zero and division by
`0 + 0.0001` keeps the result well-defined. -/
theorem scaled_electric_field_empty (p : Vec2) (lam : ℝ) :
    scaled_electric_field ([] : Charges) p lam = (0, 0) := by
  norm_num [scaled_electric_field, etot, snorm2]

/-- C5: the claim says every engine operation is total, explicitly
including `nearest` on a collection with zero charges; but `get_closest` on
an empty collection reaches `np.argmin` of an empty array, which raises
`ValueError` — modelled here as the `Except.error` outcome. -/
theorem get_closest_empty_faults :
    get_closest ([] : Charges) (0, 0) 0.1 = Except.error () := rfl

/-- C6: `delete_charge` with an in-range index `k` removes exactly entry
`k` — the length drops by one, indices below `k` are unchanged and indices
above `k` shift down by one — while any out-of-range index (negative or
too large) is a no-op that leaves the collection unchanged. -/
theorem delete_charge_spec (cs : Charges) (k : Int) :
    (0 ≤ k ∧ k < (cs.length : Int) →
      (delete_charge cs k).length = cs.length - 1 ∧
      (∀ i : ℕ, (i : Int) < k → (delete_charge cs k)[i]? = cs[i]?) ∧
      (∀ i : ℕ, k < (i : Int) → (delete_charge cs k)[i - 1]? = cs[i]?)) ∧
    (¬(0 ≤ k ∧ k < (cs.length : Int)) → delete_charge cs k = cs) := by
  constructor
  · intro h
    have hk : k.toNat < cs.length := by omega
    simp only [delete_charge, if_pos h]
    refine ⟨?_, ?_, ?_⟩
    · have := List.length_eraseIdx_add_one hk
      omega
    · intro i hi
      exact getElem?_eraseIdx_of_lt cs k.toNat i (by omega)
    · intro i hi
      have h1 : i - 1 + 1 = i := by omega
      rw [getElem?_eraseIdx_of_ge cs k.toNat (i - 1) (by omega), h1]
  · intro h
    simp only [delete_charge, if_neg h]

theorem delete_charge_spec_witness :
    (0 ≤ (0 : Int) ∧ (0 : Int) < (([(1, (0, 0)), (2, (3, 4))] : Charges).length : Int)) ∧
      ((delete_charge [(1, (0, 0)), (2, (3, 4))] 0).length
          = ([(1, (0, 0)), (2, (3, 4))] : Charges).length - 1 ∧
        (∀ i : ℕ, (i : Int) < 0 →
          (delete_charge [(1, (0, 0)), (2, (3, 4))] 0)[i]?
            = ([(1, (0, 0)), (2, (3, 4))] : Charges)[i]?) ∧
        (∀ i : ℕ, (0 : Int) < (i : Int) →
          (delete_charge [(1, (0, 0)), (2, (3, 4))] 0)[i - 1]?
            = ([(1, (0, 0)), (2, (3, 4))] : Charges)[i]?)) :=
  ⟨by norm_num, (delete_charge_spec [(1, (0, 0)), (2, (3, 4))] 0).1 (by norm_num)⟩

/-- C7: `set_position` with an in-range index `k` overwrites only the
position of charge `k`, keeping its magnitude and every other entry, and
keeps the length; any out-of-range index is a no-op that leaves the
collection unchanged. -/
theorem set_position_spec (cs : Charges) (k : Int) (xy : Vec2) :
    (0 ≤ k ∧ k < (cs.length : Int) →
      (set_position cs k xy).length = cs.length ∧
      (set_position cs k xy)[k.toNat]? = cs[k.toNat]?.map (fun c => (c.1, xy)) ∧
      (∀ i : ℕ, i ≠ k.toNat → (set_position cs k xy)[i]? = cs[i]?)) ∧
    (¬(0 ≤ k ∧ k < (cs.length : Int)) → set_position cs k xy = cs) := by
  constructor
  · intro h
    simp only [set_position, if_pos h]
    exact ⟨length_setPos cs k.toNat xy, getElem?_setPos_self cs k.toNat xy,
      fun i hi => getElem?_setPos_ne cs k.toNat xy i hi⟩
  · intro h
    simp only [set_position, if_neg h]

theorem set_position_spec_witness :
    (0 ≤ (1 : Int) ∧ (1 : Int) < (([(1, (0, 0)), (2, (3, 4))] : Charges).length : Int)) ∧
      ((set_position [(1, (0, 0)), (2, (3, 4))] 1 (5, 6)).length
          = ([(1, (0, 0)), (2, (3, 4))] : Charges).length ∧
        (set_position [(1, (0, 0)), (2, (3, 4))] 1 (5, 6))[(1 : Int).toNat]?
          = (([(1, (0, 0)), (2, (3, 4))] : Charges)[(1 : Int).toNat]?).map (fun c => (c.1, (5, 6))) ∧
        (∀ i : ℕ, i ≠ (1 : Int).toNat →
          (set_position [(1, (0, 0)), (2, (3, 4))] 1 (5, 6))[i]?
            = ([(1, (0, 0)), (2, (3, 4))] : Charges)[i]?)) :=
  ⟨by norm_num, (set_position_spec [(1, (0, 0)), (2, (3, 4))] 1 (5, 6)).1 (by norm_num)⟩

/-- C9: removing an in-range index `k` that has at least one later charge
and then re-adding the identical (magnitude, position) pair places the
re-added charge at the last index `s - 1`, which is not its former index
`k`: a raw index is not stable across removal. -/
theorem remove_then_add_spec (cs : Charges) (k : ℕ) (q : ℝ) (xy : Vec2)
    (h1 : k + 1 < cs.length) (_h2 : cs[k]? = some (q, xy)) :
    (add_charge (delete_charge cs (k : Int)) q xy).length = cs.length ∧
    (add_charge (delete_charge cs (k : Int)) q xy)[cs.length - 1]? = some (q, xy) ∧
    k ≠ cs.length - 1 := by
  have hg : 0 ≤ (k : Int) ∧ (k : Int) < (cs.length : Int) := by omega
  have hk : (k : Int).toNat < cs.length := by omega
  have hlen : (cs.eraseIdx (k : Int).toNat).length = cs.length - 1 := by
    have := List.length_eraseIdx_add_one hk
    omega
  simp only [add_charge, delete_charge, if_pos hg]
  refine ⟨?_, ?_, by omega⟩
  · rw [List.length_append, hlen]
    simp
    omega
  · rw [show cs.length - 1 = (cs.eraseIdx (k : Int).toNat).length from hlen.symm]
    exact List.getElem?_concat_length _ _

theorem remove_then_add_spec_witness :
    (0 + 1 < ([(1, (0, 0)), (2, (3, 4))] : Charges).length) ∧
      (([(1, (0, 0)), (2, (3, 4))] : Charges)[0]? = some (1, (0, 0))) ∧
      ((add_charge (delete_charge [(1, (0, 0)), (2, (3, 4))] ((0 : ℕ) : Int)) 1 (0, 0)).length
          = ([(1, (0, 0)), (2, (3, 4))] : Charges).length ∧
        (add_charge (delete_charge [(1, (0, 0)), (2, (3, 4))] ((0 : ℕ) : Int)) 1
            (0, 0))[([(1, (0, 0)), (2, (3, 4))] : Charges).length - 1]? = some (1, (0, 0)) ∧
        0 ≠ ([(1, (0, 0)), (2, (3, 4))] : Charges).length - 1) :=
  ⟨by norm_num, by norm_num, remove_then_add_spec [(1, (0, 0)), (2, (3, 4))] 0 1 (0, 0)
    (by norm_num) (by norm_num)⟩

lemma range_map_getD_eq_zip : ∀ (as : List ℝ) (bs : List Vec2), as.length = bs.length →
    (List.range as.length).map (fun k => (as.getD k 0, bs.getD k (0, 0))) = as.zip bs := by
  intro as
  induction as with
  | nil => intro bs h; simp
  | cons a as ih =>
    intro bs h
    match bs with
    | b :: bs =>
      have h2 : as.length = bs.length := by simpa using h
      simp only [List.length_cons, List.range_succ_eq_map, List.map_cons,
        List.map_map, List.getD_cons_zero, List.zip_cons_cons]
      refine congrArg (List.cons (a, b)) ?_
      calc (List.range as.length).map
            ((fun k => ((a :: as).getD k 0, (b :: bs).getD k (0, 0))) ∘ Nat.succ)
          = (List.range as.length).map (fun k => (as.getD k 0, bs.getD k (0, 0))) :=
            List.map_congr_left (fun k _ => by simp)
        _ = as.zip bs := ih bs h2


/-- A one-charge concrete heap state: magnitude 1 at position (0, 0), held
in buffer 0, next fresh buffer id 1. -/
def sigma0 : PyCharges := ⟨[1], fun b => if b = 0 then [(0, 0)] else [], 0, 1⟩

/-- The snapshot `get_charges` returns in state `sigma0`. -/
def snap0 : PySnapshot := ⟨[1], 0⟩

/-- C8 (counterexample): `get_charges` hands out numpy views of the rows of
the position buffer, and `set_position` writes that buffer in place, so a
previously returned snapshot IS altered by a subsequent `set_position`:
with one charge at `(0, 0)`, after `set_position 0 (5, 5)` the earlier
snapshot reads `(5, 5)`, no longer its call-time value `(0, 0)`. -/
theorem snapshot_alias_counterexample :
    readSnapshot (py_set_position sigma0 0 (5, 5)) (py_get_charges sigma0)
      ≠ readSnapshot sigma0 (py_get_charges sigma0) := by
  norm_num [readSnapshot, py_set_position, py_get_charges, sigma0,
    Function.update, List.range_succ]

/-- C8 (amended): `get_charges` returns the ordered (magnitude, position)
pairs exactly as at call time, and a previously returned snapshot is not
altered by a subsequent `add_charge` or `delete_charge` (those rebind
`_pos` to a freshly allocated buffer); it IS altered by a subsequent
`set_position`, which writes the shared position buffer in place. -/
theorem snapshot_spec (σ : PyCharges) (q : ℝ) (xy : Vec2) (k : Int) (s : PySnapshot)
    (hlen : σ.qvals.length = (σ.store σ.cur).length) (hbuf : s.buf < σ.next) :
    readSnapshot σ (py_get_charges σ) = σ.qvals.zip (σ.store σ.cur) ∧
    readSnapshot (py_add σ q xy) s = readSnapshot σ s ∧
    readSnapshot (py_delete σ k) s = readSnapshot σ s := by
  have hne : s.buf ≠ σ.next := by omega
  refine ⟨?_, ?_, ?_⟩
  · simpa [readSnapshot, py_get_charges] using
      range_map_getD_eq_zip σ.qvals (σ.store σ.cur) hlen
  · simp [readSnapshot, py_add, Function.update_noteq hne]
  · by_cases hg : 0 ≤ k ∧ k < (σ.qvals.length : Int)
    · simp [readSnapshot, py_delete, hg, Function.update_noteq hne]
    · simp [readSnapshot, py_delete, hg]

theorem snapshot_spec_witness :
    (sigma0.qvals.length = (sigma0.store sigma0.cur).length) ∧
    (snap0.buf < sigma0.next) ∧
    (readSnapshot sigma0 (py_get_charges sigma0)
        = sigma0.qvals.zip (sigma0.store sigma0.cur) ∧
      readSnapshot (py_add sigma0 2 (1, 1)) snap0 = readSnapshot sigma0 snap0 ∧
      readSnapshot (py_delete sigma0 0) snap0 = readSnapshot sigma0 snap0) :=
  ⟨by norm_num [sigma0], by norm_num [sigma0, snap0],
    snapshot_spec sigma0 2 (1, 1) 0 snap0 (by norm_num [sigma0])
      (by norm_num [sigma0, snap0])⟩

lemma enorm_scaled_le (x y : ℝ) :
    enorm (x / (x ^ 2 + y ^ 2 + 0.0001), y / (x ^ 2 + y ^ 2 + 0.0001)) ≤ 100 := by
  have heps : (0.0001 : ℝ) = 1 / 10000 := by norm_num
  rw [heps]
  have hs : (0 : ℝ) ≤ x ^ 2 + y ^ 2 := by positivity
  have hd : (0 : ℝ) < x ^ 2 + y ^ 2 + 1 / 10000 := by positivity
  have h1 : (x / (x ^ 2 + y ^ 2 + 1 / 10000)) ^ 2 + (y / (x ^ 2 + y ^ 2 + 1 / 10000)) ^ 2
      = (x ^ 2 + y ^ 2) / (x ^ 2 + y ^ 2 + 1 / 10000) ^ 2 := by
    field_simp
    ring
  rw [enorm, h1]
  have h2 : Real.sqrt ((x ^ 2 + y ^ 2) / (x ^ 2 + y ^ 2 + 1 / 10000) ^ 2)
      = Real.sqrt (x ^ 2 + y ^ 2) / (x ^ 2 + y ^ 2 + 1 / 10000) := by
    rw [Real.sqrt_div hs, Real.sqrt_sq hd.le]
  rw [h2, div_le_iff₀ hd]
  nlinarith [Real.sq_sqrt hs, Real.sqrt_nonneg (x ^ 2 + y ^ 2),
    sq_nonneg (10 * Real.sqrt (x ^ 2 + y ^ 2) - 1 / 20)]

/-- C2: for a query point not coinciding with any charge position, the
rescaled field is bounded: its Euclidean norm is at most `1/sqrt(0.0001)`,
i.e. at most 100, because the raw field vector is divided by its squared
magnitude plus `0.0001`.  (In this real-number model the bound in fact
holds for every point; the hypothesis states the claim's domain.) -/
theorem scaled_electric_field_bound (cs : Charges) (p : Vec2) (lam : ℝ)
    (_h : ∀ c ∈ cs, c.2 ≠ p) :
    enorm (scaled_electric_field cs p lam) ≤ 100 :=
  enorm_scaled_le (etot cs p).1 (etot cs p).2

theorem scaled_electric_field_bound_witness :
    (∀ c ∈ ([(1, (0, 0))] : Charges), c.2 ≠ ((3 : ℝ), (4 : ℝ))) ∧
    enorm (scaled_electric_field [(1, (0, 0))] (3, 4) 0) ≤ 100 := by
  have hsep : ∀ c ∈ ([(1, (0, 0))] : Charges), c.2 ≠ ((3 : ℝ), (4 : ℝ)) := by
    intro c hc
    simp only [List.mem_singleton] at hc
    subst hc
    simp only [ne_eq, Prod.mk.injEq, not_and]
    intro h3
    norm_num at h3
  exact ⟨hsep, scaled_electric_field_bound [(1, (0, 0))] (3, 4) 0 hsep⟩

lemma length_angles (n : ℕ) : (angles n).length = n := by
  rw [angles, List.length_map, linspace, List.length_map, List.length_range]

lemma flatMap_if_eq_filter (l : List (ℝ × Vec2)) (f : ℝ × Vec2 → List (List Vec2)) :
    (l.flatMap fun c => if 0 < c.1 then f c else [])
      = (l.filter fun c => decide (0 < c.1)).flatMap f := by
  induction l with
  | nil => simp
  | cons c cs ih => by_cases hc : 0 < c.1 <;> simp [List.filter_cons, hc, ih]

lemma length_flatMap_const {α β : Type} (l : List α) (f : α → List β) (n : ℕ)
    (h : ∀ a ∈ l, (f a).length = n) : (l.flatMap f).length = n * l.length := by
  induction l with
  | nil => simp
  | cons a as ih =>
    have hlen : ∀ a ∈ as, (f a).length = n := fun a ha => h a (by simp [ha])
    simp only [List.flatMap_cons, List.length_append, h a (by simp), ih hlen,
      List.length_cons, Nat.mul_succ]
    omega

/-- C1: with `lines_per_charge = n > 0`, `field_lines` returns exactly
`n * (number of charges with magnitude > 0)` lines, in deterministic
order: all `n` lines of the first positive charge (in charge index order),
then the next, and so on; zero and negative charges contribute no lines. -/
theorem field_lines_count (cs : Charges) (n : ℕ) (_hn : 0 < n) (r lm : ℝ) (pts : ℕ) :
    (field_lines cs n r lm pts).length
        = n * ((get_charges cs).filter (fun c => decide (0 < c.1))).length ∧
    field_lines cs n r lm pts
        = ((get_charges cs).filter (fun c => decide (0 < c.1))).flatMap
            (lineFam cs n r lm pts) := by
  have hf := flatMap_if_eq_filter (get_charges cs) (lineFam cs n r lm pts)
  constructor
  · rw [field_lines, hf]
    refine length_flatMap_const _ _ n (fun c _ => ?_)
    rw [lineFam, List.length_map, length_angles]
  · rw [field_lines]
    exact hf

theorem field_lines_count_witness :
    (0 < 2) ∧
    ((field_lines [(1, (0, 0)), (-1, (2, 0))] 2 1 0 1).length
        = 2 * ((get_charges [(1, (0, 0)), (-1, (2, 0))]).filter
            (fun c => decide (0 < c.1))).length ∧
      field_lines [(1, (0, 0)), (-1, (2, 0))] 2 1 0 1
        = ((get_charges [(1, (0, 0)), (-1, (2, 0))]).filter
            (fun c => decide (0 < c.1))).flatMap
              (lineFam [(1, (0, 0)), (-1, (2, 0))] 2 1 0 1)) :=
  ⟨by norm_num, field_lines_count [(1, (0, 0)), (-1, (2, 0))] 2 (by norm_num) 1 0 1⟩

lemma length_odeintGo (f : Vec2 → ℝ → Vec2) :
    ∀ (ts : List ℝ) (y : Vec2) (t : ℝ), (odeintGo f y t ts).length = ts.length + 1 := by
  intro ts
  induction ts with
  | nil => intro y t; rfl
  | cons s ts ih => intro y t; simp [odeintGo, ih]

lemma length_odeint (f : Vec2 → ℝ → Vec2) (y0 : Vec2) (ts : List ℝ) :
    (odeint f y0 ts).length = ts.length := by
  cases ts with
  | nil => rfl
  | cons t0 rest => simp [odeint, length_odeintGo]

lemma head?_odeintGo (f : Vec2 → ℝ → Vec2) (y : Vec2) (t : ℝ) (ts : List ℝ) :
    (odeintGo f y t ts).head? = some y := by
  cases ts <;> rfl

lemma length_linspace (a b : ℝ) (n : ℕ) : (linspace a b n).length = n := by
  rw [linspace, List.length_map, List.length_range]

lemma head?_odeint_cons (f : Vec2 → ℝ → Vec2) (y0 : Vec2) (t0 : ℝ) (rest : List ℝ) :
    (odeint f y0 (t0 :: rest)).head? = some y0 :=
  head?_odeintGo f y0 t0 rest

/-- C4: every line returned by `field_lines` has exactly `points` points
and starts exactly at its seed `charge_position + start_radius * (cos θ,
sin θ)` for its angle θ; in particular, for a single charge `(+1, (0,0))`
with 4 lines, start radius 1, `lambda_max = 0` and 1 point per line, the
result is 4 one-point lines, each equal to its seed. -/
theorem field_lines_points (cs : Charges) (n : ℕ) (r lm : ℝ) (pts : ℕ)
    (hpts : 0 < pts) :
    (∀ l ∈ field_lines cs n r lm pts,
      l.length = pts ∧
      ∃ c ∈ get_charges cs, 0 < c.1 ∧ ∃ θ ∈ angles n,
        l.head? = some (c.2.1 + r * Real.cos θ, c.2.2 + r * Real.sin θ)) ∧
    field_lines [(1, (0, 0))] 4 1 0 1
        = (angles 4).map (fun θ => [(Real.cos θ, Real.sin θ)]) ∧
    (angles 4).length = 4 := by
  refine ⟨?_, ?_, length_angles 4⟩
  · intro l hl
    rw [field_lines] at hl
    obtain ⟨c, hc, hl2⟩ := List.mem_flatMap.mp hl
    by_cases hpos : 0 < c.1
    · rw [if_pos hpos] at hl2
      obtain ⟨θ, hθ, rfl⟩ := List.mem_map.mp hl2
      refine ⟨by rw [length_odeint, length_linspace], c, hc, hpos, θ, hθ, ?_⟩
      have hlen : (linspace 0 lm pts).length = pts := length_linspace 0 lm pts
      cases hts : linspace 0 lm pts with
      | nil => rw [hts] at hlen; simp at hlen; omega
      | cons t0 rest => exact head?_odeint_cons _ _ t0 rest
    · rw [if_neg hpos] at hl2
      simp at hl2
  · have hts : linspace 0 0 1 = [0] := by
      norm_num [linspace, List.range_succ]
    simp only [field_lines, get_charges, List.flatMap_cons, List.flatMap_nil,
      List.append_nil, lineFam, hts, odeint, odeintGo,
      if_pos (show (0 : ℝ) < 1 by norm_num)]
    exact List.map_congr_left (fun θ _ => by norm_num)

theorem field_lines_points_witness :
    (0 < 1) ∧
    ((∀ l ∈ field_lines [(1, (0, 0))] 4 1 0 1,
        l.length = 1 ∧
        ∃ c ∈ get_charges [(1, (0, 0))], 0 < c.1 ∧ ∃ θ ∈ angles 4,
          l.head? = some (c.2.1 + 1 * Real.cos θ, c.2.2 + 1 * Real.sin θ)) ∧
      field_lines [(1, (0, 0))] 4 1 0 1
          = (angles 4).map (fun θ => [(Real.cos θ, Real.sin θ)]) ∧
      (angles 4).length = 4) :=
  ⟨by norm_num, field_lines_points [(1, (0, 0))] 4 1 0 1 (by norm_num)⟩

lemma sqd_nonneg (a b : Vec2) : 0 ≤ sqd a b := by
  simp only [sqd]
  positivity

lemma argminIdx_spec : ∀ (xs : List ℝ) (x : ℝ),
    argminIdx x xs < (x :: xs).length ∧
    (∀ j < (x :: xs).length, (x :: xs).getD (argminIdx x xs) 0 ≤ (x :: xs).getD j 0) ∧
    (∀ j < argminIdx x xs, (x :: xs).getD (argminIdx x xs) 0 < (x :: xs).getD j 0) := by
  intro xs
  induction xs with
  | nil =>
    intro x
    refine ⟨by simp [argminIdx], ?_, ?_⟩
    · intro j hj
      have hj0 : j = 0 := by
        simp only [List.length_cons, List.length_nil] at hj
        omega
      subst hj0
      simp [argminIdx]
    · intro j hj
      simp only [argminIdx] at hj
      omega
  | cons y ys ih =>
    intro x
    obtain ⟨ih1, ih2, ih3⟩ := ih y
    by_cases hc : x ≤ (y :: ys).getD (argminIdx y ys) 0
    · have he : argminIdx x (y :: ys) = 0 := by
        simp only [argminIdx, if_pos hc]
      rw [he]
      refine ⟨by simp, ?_, ?_⟩
      · intro j hj
        match j with
        | 0 => simp
        | j + 1 =>
          have hj2 : j < (y :: ys).length := by
            simp only [List.length_cons] at hj ⊢
            omega
          calc (x :: y :: ys).getD 0 0 = x := by simp
            _ ≤ (y :: ys).getD (argminIdx y ys) 0 := hc
            _ ≤ (y :: ys).getD j 0 := ih2 j hj2
            _ = (x :: y :: ys).getD (j + 1) 0 := (List.getD_cons_succ).symm
      · intro j hj
        omega
    · have hlt : (y :: ys).getD (argminIdx y ys) 0 < x := not_le.mp hc
      have he : argminIdx x (y :: ys) = argminIdx y ys + 1 := by
        simp only [argminIdx, if_neg hc]
      rw [he]
      refine ⟨by simpa using ih1, ?_, ?_⟩
      · intro j hj
        match j with
        | 0 =>
          simp only [List.getD_cons_succ, List.getD_cons_zero]
          exact le_of_lt hlt
        | j + 1 =>
          have hj2 : j < (y :: ys).length := by
            simp only [List.length_cons] at hj ⊢
            omega
          simp only [List.getD_cons_succ]
          exact ih2 j hj2
      · intro j hj
        match j with
        | 0 =>
          simp only [List.getD_cons_succ, List.getD_cons_zero]
          exact hlt
        | j + 1 =>
          have hj2 : j < argminIdx y ys := by omega
          simp only [List.getD_cons_succ]
          exact ih3 j hj2

lemma firstMin_unique (l : List ℝ) (i1 i2 : ℕ)
    (h1len : i1 < l.length)
    (h1le : ∀ j < l.length, l.getD i1 0 ≤ l.getD j 0)
    (h1lt : ∀ j < i1, l.getD i1 0 < l.getD j 0)
    (h2len : i2 < l.length)
    (h2le : ∀ j < l.length, l.getD i2 0 ≤ l.getD j 0)
    (h2lt : ∀ j < i2, l.getD i2 0 < l.getD j 0) : i1 = i2 := by
  rcases Nat.lt_trichotomy i1 i2 with h | h | h
  · have ha := h2lt i1 h
    have hb := h1le i2 h2len
    linarith
  · exact h
  · have ha := h1lt i2 h
    have hb := h2le i1 h1len
    linarith

lemma getD_map_sqd (cs : Charges) (p : Vec2) (j : ℕ) (hj : j < cs.length) :
    (cs.map (fun c => sqd p c.2)).getD j 0 = sqd p ((cs.getD j (0, (0, 0))).2) := by
  rw [List.getD_eq_getElem?_getD, List.getElem?_map, List.getElem?_eq_getElem hj,
    List.getD_eq_getElem cs (0, (0, 0)) hj]
  rfl

lemma get_closest_cons (c0 : ℝ × Vec2) (cs0 : Charges) (p : Vec2) (r : ℝ) :
    get_closest (c0 :: cs0) p r =
      if ((c0 :: cs0).map (fun c => sqd p c.2)).getD
            (argminIdx (sqd p c0.2) (cs0.map (fun c => sqd p c.2))) 0 < r ^ 2 then
        Except.ok (some (argminIdx (sqd p c0.2) (cs0.map (fun c => sqd p c.2))))
      else Except.ok none := rfl

/-- C3 (amended): for a NONEMPTY charge collection and a nonnegative
radius, `get_closest` returns `some i` exactly when `i` is the first index
attaining the minimal Euclidean distance to the query point and that
distance is strictly below the radius, and it returns the sentinel `none`
exactly when every charge lies at distance at least the radius.  (As
stated over every charge collection and radius the claim fails: on an
empty collection `get_closest` faults in `np.argmin` instead of returning
the sentinel, and for a negative radius it compares the squared distance
against `radius**2` and can return an index although no distance is below
the radius.) -/
theorem get_closest_spec (cs : Charges) (p : Vec2) (r : ℝ)
    (hne : cs ≠ []) (hr : 0 ≤ r) :
    (∀ i : ℕ, get_closest cs p r = Except.ok (some i) ↔
      (i < cs.length ∧
       (∀ j < cs.length, distToCharge cs p i ≤ distToCharge cs p j) ∧
       (∀ j < i, distToCharge cs p i < distToCharge cs p j) ∧
       distToCharge cs p i < r)) ∧
    (get_closest cs p r = Except.ok none ↔
      ∀ i < cs.length, r ≤ distToCharge cs p i) := by
  rcases cs with _ | ⟨c0, cs0⟩
  · exact absurd rfl hne
  obtain ⟨hq1, hq2, hq3⟩ := argminIdx_spec (cs0.map (fun c => sqd p c.2)) (sqd p c0.2)
  have hmap : sqd p c0.2 :: cs0.map (fun c => sqd p c.2)
      = (c0 :: cs0).map (fun c => sqd p c.2) := rfl
  rw [hmap] at hq1 hq2 hq3
  set q := argminIdx (sqd p c0.2) (cs0.map (fun c => sqd p c.2)) with hqdef
  set D := (c0 :: cs0).map (fun c => sqd p c.2) with hDdef
  have hlenD : D.length = (c0 :: cs0).length := by rw [hDdef, List.length_map]
  have hDj : ∀ j, j < (c0 :: cs0).length →
      D.getD j 0 = sqd p (((c0 :: cs0).getD j (0, (0, 0))).2) := by
    intro j hj
    rw [hDdef]
    exact getD_map_sqd (c0 :: cs0) p j hj
  have hDnn : ∀ j, j < (c0 :: cs0).length → 0 ≤ D.getD j 0 := by
    intro j hj
    rw [hDj j hj]
    exact sqd_nonneg _ _
  have hdist : ∀ j, j < (c0 :: cs0).length →
      distToCharge (c0 :: cs0) p j = Real.sqrt (D.getD j 0) := by
    intro j hj
    rw [distToCharge, hDj j hj]
  have hqlen : q < (c0 :: cs0).length := by rw [← hlenD]; exact hq1
  have hqle : ∀ j < (c0 :: cs0).length,
      distToCharge (c0 :: cs0) p q ≤ distToCharge (c0 :: cs0) p j := by
    intro j hj
    rw [hdist q hqlen, hdist j hj]
    exact Real.sqrt_le_sqrt (hq2 j (by rw [hlenD]; exact hj))
  have hqlt : ∀ j < q,
      distToCharge (c0 :: cs0) p q < distToCharge (c0 :: cs0) p j := by
    intro j hj
    have hjlen : j < (c0 :: cs0).length := lt_trans hj hqlen
    rw [hdist q hqlen, hdist j hjlen]
    exact Real.sqrt_lt_sqrt (hDnn q hqlen) (hq3 j hj)
  have heval : get_closest (c0 :: cs0) p r =
      if D.getD q 0 < r ^ 2 then Except.ok (some q) else Except.ok none := by
    rw [get_closest_cons c0 cs0 p r, ← hqdef, ← hDdef]
  constructor
  · intro i
    constructor
    · intro hok
      rw [heval] at hok
      by_cases hcond : D.getD q 0 < r ^ 2
      · rw [if_pos hcond] at hok
        have hiq : q = i := Option.some.inj (Except.ok.inj hok)
        subst hiq
        refine ⟨hqlen, hqle, hqlt, ?_⟩
        rw [hdist q hqlen]
        rcases eq_or_lt_of_le hr with hr0 | hrpos
        · exfalso
          rw [← hr0] at hcond
          have := hDnn q hqlen
          simp only [ne_eq, OfNat.ofNat_ne_zero, not_false_eq_true, zero_pow] at hcond
          linarith
        · exact (Real.sqrt_lt' hrpos).mpr hcond
      · rw [if_neg hcond] at hok
        simp at hok
    · rintro ⟨hilen, hile, hilt, hir⟩
      have hDile : ∀ j, j < D.length → D.getD i 0 ≤ D.getD j 0 := by
        intro j hj
        have hj2 : j < (c0 :: cs0).length := by rw [← hlenD]; exact hj
        have h3 := hile j hj2
        rw [hdist i hilen, hdist j hj2] at h3
        exact (Real.sqrt_le_sqrt_iff (hDnn j hj2)).mp h3
      have hDilt : ∀ j, j < i → D.getD i 0 < D.getD j 0 := by
        intro j hj
        have hj2 : j < (c0 :: cs0).length := lt_trans hj hilen
        have h3 := hilt j hj
        rw [hdist i hilen, hdist j hj2] at h3
        exact (Real.sqrt_lt_sqrt_iff (hDnn i hilen)).mp h3
      have hiq : q = i :=
        firstMin_unique D q i hq1 hq2 hq3 (by rw [hlenD]; exact hilen) hDile hDilt
      rw [heval, hiq]
      have hcond : D.getD i 0 < r ^ 2 := by
        rw [hdist i hilen] at hir
        rcases eq_or_lt_of_le hr with hr0 | hrpos
        · exfalso
          have := Real.sqrt_nonneg (D.getD i 0)
          linarith [hr0 ▸ hir]
        · exact (Real.sqrt_lt' hrpos).mp hir
      rw [if_pos hcond]
  · rw [heval]
    by_cases hcond : D.getD q 0 < r ^ 2
    · rw [if_pos hcond]
      constructor
      · intro hok
        simp at hok
      · intro hall
        exfalso
        have h1 := hall q hqlen
        rw [hdist q hqlen] at h1
        have h2 : r ^ 2 ≤ D.getD q 0 := (Real.le_sqrt hr (hDnn q hqlen)).mp h1
        linarith
    · rw [if_neg hcond]
      constructor
      · intro _ i hi
        have h2 : r ^ 2 ≤ D.getD q 0 := not_lt.mp hcond
        have h3 : r ≤ Real.sqrt (D.getD q 0) := (Real.le_sqrt hr (hDnn q hqlen)).mpr h2
        calc r ≤ Real.sqrt (D.getD q 0) := h3
          _ = distToCharge (c0 :: cs0) p q := (hdist q hqlen).symm
          _ ≤ distToCharge (c0 :: cs0) p i := hqle i hi
      · intro _
        rfl

theorem get_closest_spec_witness :
    (([(1, (0, 0)), (1, (10, 0))] : Charges) ≠ []) ∧
    ((0 : ℝ) ≤ 4) ∧
    ((∀ i : ℕ, get_closest [(1, (0, 0)), (1, (10, 0))] (0, 3) 4 = Except.ok (some i) ↔
        (i < ([(1, (0, 0)), (1, (10, 0))] : Charges).length ∧
         (∀ j < ([(1, (0, 0)), (1, (10, 0))] : Charges).length,
            distToCharge [(1, (0, 0)), (1, (10, 0))] (0, 3) i
              ≤ distToCharge [(1, (0, 0)), (1, (10, 0))] (0, 3) j) ∧
         (∀ j < i, distToCharge [(1, (0, 0)), (1, (10, 0))] (0, 3) i
              < distToCharge [(1, (0, 0)), (1, (10, 0))] (0, 3) j) ∧
         distToCharge [(1, (0, 0)), (1, (10, 0))] (0, 3) i < 4)) ∧
      (get_closest [(1, (0, 0)), (1, (10, 0))] (0, 3) 4 = Except.ok none ↔
        ∀ i < ([(1, (0, 0)), (1, (10, 0))] : Charges).length,
          (4 : ℝ) ≤ distToCharge [(1, (0, 0)), (1, (10, 0))] (0, 3) i)) :=
  ⟨by simp, by norm_num,
    get_closest_spec [(1, (0, 0)), (1, (10, 0))] (0, 3) 4 (by simp) (by norm_num)⟩

/-- C3 (counterexample): the claim quantifies over every charge collection
and radius, but on the empty collection `get_closest` faults instead of
returning the `none` sentinel, and with the negative radius `-1` and one
charge at distance `1/2` it returns index 0 although that distance is not
strictly less than `-1`. -/
theorem get_closest_claim_counterexample :
    get_closest ([] : Charges) (0, 0) 1 = Except.error () ∧
    get_closest [(1, (0, 0))] (0, 1 / 2) (-1) = Except.ok (some 0) ∧
    ¬ distToCharge [(1, (0, 0))] (0, 1 / 2) 0 < -1 := by
  refine ⟨rfl, ?_, ?_⟩
  · rw [get_closest_cons]
    norm_num [argminIdx, sqd]
  · intro h
    have h2 : (0 : ℝ) ≤ distToCharge [(1, (0, 0))] (0, 1 / 2) 0 := Real.sqrt_nonneg _
    linarith
